import Mathlib

/-!
Verification of the Subtitle Timeline Reconciliation & Highlight-Segment
Selection Engine (scripts/python/srt_cleaner.py and
scripts/python/import_from_srt.py).

Modelling conventions:
* Python strings are `List Char`; Python `a in b` (substring) is `isSubstr`.
* Python floats are embedded as `ℚ` (all arithmetic in the engine is
  comparisons, additions, subtractions, multiplications and divisions of
  decimal inputs, which `ℚ` reproduces exactly; IEEE rounding, `inf` and
  `nan` are outside the model).
* SRT timestamps "HH:MM:SS,mmm" are kept as opaque `List Char` payloads in
  the rolling-caption merger (which never inspects them), and as integer
  milliseconds in the sentence segmenter (time_to_ms / ms_to_time are a
  bijection between well-formed strings with hour < 100 and their
  millisecond values, so equalities of formatted times are equalities of
  the integer values).
-/

namespace SrtSpec

/-- Python `c.isspace()` for the characters that occur in subtitle text
(space, tab, CR, LF); mirrors `\s` for the ASCII range. -/
def isWs (c : Char) : Bool :=
  c = ' ' || c = '\t' || c = '\r' || c = '\n'

/-- Python `str.strip()`. -/
def pstrip (l : List Char) : List Char :=
  ((l.dropWhile isWs).reverse.dropWhile isWs).reverse

/-- Python `str.lstrip()`. -/
def plstrip (l : List Char) : List Char :=
  l.dropWhile isWs

/-- `leadsWith p l` is Python `l.startswith(p)`. -/
def leadsWith : List Char → List Char → Bool
  | [], _ => true
  | _ :: _, [] => false
  | a :: as, b :: bs => a = b && leadsWith as bs

/-- `trailsWith p l` is Python `l.endswith(p)`. -/
def trailsWith (p l : List Char) : Bool :=
  leadsWith p.reverse l.reverse

/-- `isSubstr n h` is Python `n in h` on strings (contiguous substring). -/
def isSubstr : List Char → List Char → Bool
  | n, [] => n.isEmpty
  | n, h :: t => leadsWith n (h :: t) || isSubstr n t

/-- Python regex `\w` for the ASCII range: letters, digits, underscore. -/
def isWordChar (c : Char) : Bool :=
  c.isAlphanum || c = '_'

/-!
## srt_cleaner.clean_rolling_captions (RollingCaptionMerger)
-/

/-- A raw caption block as produced by `parse_srt_text`: timestamps are the
original "HH:MM:SS,mmm" strings, which the merger copies but never reads.
Python dict keys: "start", "end" (here `stop`), "text". -/
structure RawBlock where
  start : List Char
  stop : List Char
  text : List Char
deriving DecidableEq

/-- `srt_cleaner.is_subsequence`: strip non-word characters, lower-case,
then containment; empty normalized segment is never a subsequence. -/
def is_subsequence (segment whole : List Char) : Bool :=
  let s_clean := (segment.filter isWordChar).map Char.toLower
  let w_clean := (whole.filter isWordChar).map Char.toLower
  if s_clean.isEmpty then false else isSubstr s_clean w_clean

/-- The merge loop of `clean_rolling_captions`: `cur` is the accumulator
block, the list is the remaining input. -/
def mergeLoop (cur : RawBlock) : List RawBlock → List RawBlock
  | [] => [cur]
  | nb :: rest =>
    if isSubstr cur.text nb.text || is_subsequence cur.text nb.text then
      -- case 1: next contains current (incremental): keep earliest start,
      -- take the later end and the more complete text
      mergeLoop { cur with stop := nb.stop, text := nb.text } rest
    else if isSubstr nb.text cur.text then
      -- case 2: current contains next (truncated repeat): extend end only
      mergeLoop { cur with stop := nb.stop } rest
    else
      -- case 3: genuinely new content: flush and restart the accumulator
      cur :: mergeLoop nb rest

/-- `srt_cleaner.clean_rolling_captions`. -/
def clean_rolling_captions : List RawBlock → List RawBlock
  | [] => []
  | b0 :: rest => mergeLoop b0 rest

/-- Either of the merge triggers between adjacent blocks `a` (current) and
`b` (next): conditions of case 1 and case 2 of the loop. -/
def mergeableB (a b : RawBlock) : Bool :=
  isSubstr a.text b.text || is_subsequence a.text b.text || isSubstr b.text a.text

lemma mergeLoop_ne_nil (cur : RawBlock) (l : List RawBlock) : mergeLoop cur l ≠ [] := by
  induction l generalizing cur with
  | nil => simp [mergeLoop]
  | cons nb rest ih =>
    simp only [mergeLoop]
    split
    · exact ih _
    · split
      · exact ih _
      · simp

lemma mergeLoop_head_start (cur : RawBlock) (l : List RawBlock) :
    (mergeLoop cur l).head?.map RawBlock.start = some cur.start := by
  induction l generalizing cur with
  | nil => simp [mergeLoop]
  | cons nb rest ih =>
    simp only [mergeLoop]
    split
    · exact ih _
    · split
      · exact ih _
      · simp

/-- The stop time of the last input block, for a nonempty `cur :: l`. -/
def lastStop (cur : RawBlock) (l : List RawBlock) : List Char :=
  (l.getLast? ).getD cur |>.stop

lemma lastStop_cons (cur nb : RawBlock) (rest : List RawBlock) :
    lastStop cur (nb :: rest) = lastStop nb rest := by
  cases rest with
  | nil => simp [lastStop]
  | cons r rs =>
    obtain ⟨x, hx⟩ : ∃ x, (r :: rs).getLast? = some x :=
      ⟨(r :: rs).getLast (by simp), List.getLast?_eq_getLast _ (by simp)⟩
    simp [lastStop, List.getLast?_cons_cons, hx]

lemma lastStop_congr (a b : RawBlock) (rest : List RawBlock) (h : a.stop = b.stop) :
    lastStop a rest = lastStop b rest := by
  cases rest with
  | nil => simp [lastStop, h]
  | cons r rs => rw [lastStop_cons a r rs, lastStop_cons b r rs]

lemma mergeLoop_last_stop (cur : RawBlock) (l : List RawBlock) :
    (mergeLoop cur l).getLast?.map RawBlock.stop = some (lastStop cur l) := by
  induction l generalizing cur with
  | nil => simp [mergeLoop, lastStop]
  | cons nb rest ih =>
    rw [lastStop_cons cur nb rest]
    simp only [mergeLoop]
    split
    · rw [ih]
      exact congrArg some (lastStop_congr _ nb rest rfl)
    · split
      · rw [ih]
        exact congrArg some (lastStop_congr _ nb rest rfl)
      · have h1 := ih nb
        cases hy : (mergeLoop nb rest).getLast? with
        | none =>
          rw [hy] at h1
          exact Option.noConfusion h1
        | some y =>
          rw [hy] at h1
          simp only [Option.map_some'] at h1
          rw [List.getLast?_cons, hy]
          simpa using h1

lemma getLast?_stop_lastStop (cur : RawBlock) (l : List RawBlock) :
    (cur :: l).getLast?.map RawBlock.stop = some (lastStop cur l) := by
  cases l with
  | nil => simp [lastStop]
  | cons r rs =>
    obtain ⟨x, hx⟩ : ∃ x, (r :: rs).getLast? = some x :=
      ⟨(r :: rs).getLast (by simp), List.getLast?_eq_getLast _ (by simp)⟩
    rw [List.getLast?_cons_cons, hx]
    simp [lastStop, hx]

/-- No two adjacent blocks of the list trigger a merge. -/
def adjacentNonMergeable : List RawBlock → Bool
  | [] => true
  | [_] => true
  | a :: b :: rest => !mergeableB a b && adjacentNonMergeable (b :: rest)

lemma mergeLoop_of_adjacent_non_mergeable (cur : RawBlock) (l : List RawBlock)
    (h : adjacentNonMergeable (cur :: l) = true) :
    mergeLoop cur l = cur :: l := by
  induction l generalizing cur with
  | nil => simp [mergeLoop]
  | cons nb rest ih =>
    rw [adjacentNonMergeable, Bool.and_eq_true, Bool.not_eq_true'] at h
    have hcn := h.1
    simp only [mergeableB, Bool.or_eq_false_iff] at hcn
    simp only [mergeLoop, hcn.1.1, hcn.1.2, hcn.2, Bool.or_self, if_neg, Bool.false_eq_true,
      not_false_eq_true]
    exact congrArg (cur :: ·) (ih nb h.2)

/-- C8 counterexample: `clean_rolling_captions` is not idempotent. On the
input "Hello" / "xy" / "Hello xy" the first pass flushes "Hello", then the
accumulator "xy" absorbs "Hello xy" (substring merge), so the output is
["Hello", "Hello xy"]; a second pass merges those two blocks again. -/
theorem clean_rolling_captions_not_idempotent :
    clean_rolling_captions (clean_rolling_captions
        [⟨ "00:00:00,000".toList, "00:00:01,000".toList, "Hello".toList⟩,
         ⟨ "00:00:01,000".toList, "00:00:02,500".toList, "xy".toList⟩,
         ⟨ "00:00:02,500".toList, "00:00:03,000".toList, "Hello xy".toList⟩]) ≠
      clean_rolling_captions
        [⟨ "00:00:00,000".toList, "00:00:01,000".toList, "Hello".toList⟩,
         ⟨ "00:00:01,000".toList, "00:00:02,500".toList, "xy".toList⟩,
         ⟨ "00:00:02,500".toList, "00:00:03,000".toList, "Hello xy".toList⟩] := by
  decide

/-- C8 (amended): `clean_rolling_captions` fixes any list in which no two
adjacent blocks are mergeable (neither text is a substring or normalized
subsequence of the other); in particular a second pass over its own output
is a no-op whenever the output has no adjacent mergeable pair. -/
theorem clean_rolling_captions_idempotent_of_no_adjacent_merge
    (subs : List RawBlock)
    (h : adjacentNonMergeable (clean_rolling_captions subs) = true) :
    clean_rolling_captions (clean_rolling_captions subs) = clean_rolling_captions subs := by
  cases hout : clean_rolling_captions subs with
  | nil => simp [clean_rolling_captions]
  | cons c cs =>
    rw [hout] at h
    simpa [clean_rolling_captions] using mergeLoop_of_adjacent_non_mergeable c cs h

/-- C8 amended-claim witness at a concrete two-block input whose output has
no adjacent mergeable pair. -/
theorem clean_rolling_captions_idempotent_witness :
    adjacentNonMergeable
      (clean_rolling_captions
        [⟨ "00:00:00,000".toList, "00:00:01,000".toList, "ab".toList⟩,
         ⟨ "00:00:01,000".toList, "00:00:02,000".toList, "cd".toList⟩]) = true ∧
    clean_rolling_captions (clean_rolling_captions
        [⟨ "00:00:00,000".toList, "00:00:01,000".toList, "ab".toList⟩,
         ⟨ "00:00:01,000".toList, "00:00:02,000".toList, "cd".toList⟩]) =
      clean_rolling_captions
        [⟨ "00:00:00,000".toList, "00:00:01,000".toList, "ab".toList⟩,
         ⟨ "00:00:01,000".toList, "00:00:02,000".toList, "cd".toList⟩] :=
  ⟨by decide, clean_rolling_captions_idempotent_of_no_adjacent_merge _ (by decide)⟩

/-- C10: for every non-empty input, `clean_rolling_captions` returns a
non-empty list whose first block keeps the first input block's start and
whose last block carries the last input block's end: merging preserves the
covered time span at both extremities. -/
theorem clean_rolling_captions_preserves_extremities
    (subs : List RawBlock) (h : subs ≠ []) :
    clean_rolling_captions subs ≠ [] ∧
    (clean_rolling_captions subs).head?.map RawBlock.start = subs.head?.map RawBlock.start ∧
    (clean_rolling_captions subs).getLast?.map RawBlock.stop =
      subs.getLast?.map RawBlock.stop := by
  cases subs with
  | nil => exact absurd rfl h
  | cons b0 rest =>
    refine ⟨?_, ?_, ?_⟩
    · simpa [clean_rolling_captions] using mergeLoop_ne_nil b0 rest
    · simpa [clean_rolling_captions] using mergeLoop_head_start b0 rest
    · rw [getLast?_stop_lastStop b0 rest]
      simpa [clean_rolling_captions] using mergeLoop_last_stop b0 rest

/-- C10 witness at the spec's rolling-caption scenario input. -/
theorem clean_rolling_captions_preserves_extremities_witness :
    ([⟨ "00:00:00,000".toList, "00:00:01,000".toList, "Hello".toList⟩,
      ⟨ "00:00:01,000".toList, "00:00:02,500".toList, "Hello world".toList⟩,
      ⟨ "00:00:02,500".toList, "00:00:03,000".toList, "world".toList⟩] : List RawBlock) ≠ [] ∧
    (clean_rolling_captions
        [⟨ "00:00:00,000".toList, "00:00:01,000".toList, "Hello".toList⟩,
         ⟨ "00:00:01,000".toList, "00:00:02,500".toList, "Hello world".toList⟩,
         ⟨ "00:00:02,500".toList, "00:00:03,000".toList, "world".toList⟩] ≠ [] ∧
      (clean_rolling_captions
          [⟨ "00:00:00,000".toList, "00:00:01,000".toList, "Hello".toList⟩,
           ⟨ "00:00:01,000".toList, "00:00:02,500".toList, "Hello world".toList⟩,
           ⟨ "00:00:02,500".toList, "00:00:03,000".toList, "world".toList⟩]).head?.map
          RawBlock.start =
        ([⟨ "00:00:00,000".toList, "00:00:01,000".toList, "Hello".toList⟩,
          ⟨ "00:00:01,000".toList, "00:00:02,500".toList, "Hello world".toList⟩,
          ⟨ "00:00:02,500".toList, "00:00:03,000".toList, "world".toList⟩] :
            List RawBlock).head?.map RawBlock.start ∧
      (clean_rolling_captions
          [⟨ "00:00:00,000".toList, "00:00:01,000".toList, "Hello".toList⟩,
           ⟨ "00:00:01,000".toList, "00:00:02,500".toList, "Hello world".toList⟩,
           ⟨ "00:00:02,500".toList, "00:00:03,000".toList, "world".toList⟩]).getLast?.map
          RawBlock.stop =
        ([⟨ "00:00:00,000".toList, "00:00:01,000".toList, "Hello".toList⟩,
          ⟨ "00:00:01,000".toList, "00:00:02,500".toList, "Hello world".toList⟩,
          ⟨ "00:00:02,500".toList, "00:00:03,000".toList, "world".toList⟩] :
            List RawBlock).getLast?.map RawBlock.stop) :=
  ⟨by decide, clean_rolling_captions_preserves_extremities _ (by decide)⟩

/-!
## srt_cleaner.split_sentences_with_time (SentenceSegmenter)

Block timestamps are integer milliseconds (the image of `time_to_ms`);
emitted cue timestamps are the integers written by `ms_to_time`, i.e. the
running float position rounded with Python's `round` (half to even).
-/

/-- A merged caption block entering the segmenter, times in ms. -/
structure Block where
  startMs : ℤ
  endMs : ℤ
  text : List Char
deriving DecidableEq

/-- An emitted sentence cue, times in ms as written by `ms_to_time`. -/
structure SentCue where
  startMs : ℤ
  endMs : ℤ
  text_en : List Char
deriving DecidableEq

/-- Floor of a rational, computed from its reduced numerator/denominator so
that kernel reduction works. -/
def ratFloor (q : ℚ) : ℤ :=
  q.num.fdiv q.den

/-- Python `round` composed with `int`: round half to even. -/
def pyRound (q : ℚ) : ℤ :=
  let f := ratFloor q
  if q - f < 1 / 2 then f
  else if 1 / 2 < q - f then f + 1
  else if f % 2 = 0 then f else f + 1

lemma ratFloor_intCast (n : ℤ) : ratFloor (n : ℚ) = n := by
  simp [ratFloor, Rat.num_intCast, Rat.den_intCast, Int.fdiv_one]

lemma pyRound_intCast (n : ℤ) : pyRound (n : ℚ) = n := by
  rw [pyRound, ratFloor_intCast]
  norm_num

def bslash : Char := Char.ofNat 92

/-- One of the three sentence terminators captured by the regex. -/
def isPunct (c : Char) : Bool :=
  c = '.' || c = '?' || c = '!'

/-- `re.split(r"([.?!])\\s*", text)`.  In the source the pattern is written
with a doubled backslash inside a raw string, so (as a regex) it matches a
terminator followed by one literal backslash and a run of literal `s`
characters — not a terminator followed by whitespace.  Returns the
alternating list `[pre, captured punct, pre, ..., tail]`.  The fuel is the
input length; every step consumes at least one character, so it is never
exhausted when started with `fuel = text.length`. -/
def reSplitGo : Nat → List Char → List Char → List (List Char)
  | 0, acc, rest => [(acc.reverse ++ rest)]
  | _ + 1, acc, [] => [acc.reverse]
  | fuel + 1, acc, c :: rest =>
    if isPunct c then
      match rest with
      | b :: rest2 =>
        if b = bslash then
          acc.reverse :: [c] :: reSplitGo fuel [] (rest2.dropWhile (fun d => d = 's'))
        else
          reSplitGo fuel (c :: acc) rest
      | [] => reSplitGo fuel (c :: acc) rest
    else
      reSplitGo fuel (c :: acc) rest

def reSplitParts (text : List Char) : List (List Char) :=
  reSplitGo text.length [] text

/-- Recombine the split parts: each (text, punct) pair is concatenated and
stripped (kept if non-empty), and an odd trailing part is stripped and kept
if non-empty — the loops at srt_cleaner.py:160-165. -/
def pairUp : List (List Char) → List (List Char)
  | [] => []
  | [t] => if pstrip t = [] then [] else [pstrip t]
  | a :: b :: rest =>
    let combined := pstrip (a ++ b)
    if combined = [] then pairUp rest else combined :: pairUp rest

/-- The sentence list for one block: split, recombine, and fall back to the
whole (stripped) text when nothing was produced. -/
def buildSentences (text : List Char) : List (List Char) :=
  let sents := pairUp (reSplitParts text)
  if sents = [] then [pstrip text] else sents

/-- The per-sentence emission loop (srt_cleaner.py:179-197): each sentence
gets `duration * len/totalLen`, except the last, which ends exactly at the
block's end; the running position is carried unrounded, only the written
timestamps are rounded. -/
def emitSents (dur totalLen : ℚ) (endMs : ℤ) : ℚ → List (List Char) → List SentCue
  | _, [] => []
  | cur, [s] => [⟨pyRound cur, pyRound (endMs : ℚ), pstrip s⟩]
  | cur, s :: s2 :: rest =>
    let sentEnd : ℚ := cur + dur * (max s.length 1 : ℚ) / totalLen
    ⟨pyRound cur, pyRound sentEnd, pstrip s⟩ :: emitSents dur totalLen endMs sentEnd (s2 :: rest)

/-- The cues `split_sentences_with_time` emits for one block (the loop body
at srt_cleaner.py:147-197), before the text-only post-processing pass. -/
def blockCues (b : Block) : List SentCue :=
  if pstrip b.text = [] then []
  else if b.text.length = 0 then []
  else
    emitSents (max ((b.endMs : ℚ) - (b.startMs : ℚ)) 1) (b.text.length : ℚ) b.endMs
      (b.startMs : ℚ) (buildSentences b.text)

/-- `re.sub(r"\s+", " ", s)`: collapse every whitespace run to one space;
the flag records whether the previous character was whitespace. -/
def collapseWsGo (prevWs : Bool) : List Char → List Char
  | [] => []
  | c :: rest =>
    if isWs c then
      if prevWs then collapseWsGo true rest else ' ' :: collapseWsGo true rest
    else c :: collapseWsGo false rest

def normalizeWs (l : List Char) : List Char :=
  pstrip (collapseWsGo false l)

/-- The probe loop of `trim_overlap`: largest `k` in `maxLen, ..., 10` such
that the last `k` characters of `prev` lead `curr`; `0` if none. -/
def findOverlap (prev curr : List Char) : Nat → Nat
  | 0 => 0
  | k + 1 =>
    if k + 1 < 10 then 0
    else if leadsWith (prev.drop (prev.length - (k + 1))) curr then k + 1
    else findOverlap prev curr k

/-- `trim_overlap(prev, curr, min_overlap=10, max_overlap=80)`. -/
def trim_overlap (prev curr : List Char) : List Char :=
  if prev = [] || curr = [] then curr
  else
    let maxLen := min (min prev.length curr.length) 80
    let best := findOverlap prev curr maxLen
    if 10 ≤ best then plstrip (curr.drop best) else curr

/-- The text-only post-processing pass (srt_cleaner.py:223-233): normalize
whitespace and trim the overlap with the previous emitted text. -/
def postProcess (prev : List Char) : List SentCue → List SentCue
  | [] => []
  | s :: rest =>
    let t := trim_overlap prev (normalizeWs s.text_en)
    ⟨s.startMs, s.endMs, t⟩ :: postProcess t rest

/-- `srt_cleaner.split_sentences_with_time`. -/
def split_sentences_with_time (blocks : List Block) : List SentCue :=
  postProcess [] (blocks.map blockCues).flatten

lemma emitSents_spec (dur totalLen : ℚ) (endMs : ℤ) :
    ∀ (sents : List (List Char)) (cur : ℚ), sents ≠ [] →
      emitSents dur totalLen endMs cur sents ≠ [] ∧
      ((emitSents dur totalLen endMs cur sents).map SentCue.startMs).head? =
        some (pyRound cur) ∧
      ((emitSents dur totalLen endMs cur sents).map SentCue.endMs).getLast? = some endMs ∧
      List.Chain' (fun a b => a.endMs = b.startMs) (emitSents dur totalLen endMs cur sents) ∧
      ((emitSents dur totalLen endMs cur sents).map (fun c => c.endMs - c.startMs)).sum =
        endMs - pyRound cur := by
  intro sents
  induction sents with
  | nil => intro cur h; exact absurd rfl h
  | cons s rest ih =>
    intro cur _
    cases rest with
    | nil =>
      refine ⟨by simp [emitSents], by simp [emitSents], ?_, by simp [emitSents], ?_⟩
      · simp [emitSents, pyRound_intCast]
      · simp [emitSents, pyRound_intCast]
    | cons s2 rest2 =>
      have ihne : s2 :: rest2 ≠ [] := by simp
      set sentEnd : ℚ := cur + dur * (max s.length 1 : ℚ) / totalLen with hse
      obtain ⟨h1, h2, h3, h4, h5⟩ := ih sentEnd ihne
      have hunfold : emitSents dur totalLen endMs cur (s :: s2 :: rest2) =
          ⟨pyRound cur, pyRound sentEnd, pstrip s⟩ ::
            emitSents dur totalLen endMs sentEnd (s2 :: rest2) := by
        simp [emitSents, hse]
      refine ⟨by simp [hunfold], by simp [hunfold], ?_, ?_, ?_⟩
      · rw [hunfold, List.map_cons, List.getLast?_cons]
        rw [h3]
        simp
      · rw [hunfold]
        rw [List.chain'_cons']
        constructor
        · intro b hb
          rw [List.head?_map] at h2
          cases hhd : (emitSents dur totalLen endMs sentEnd (s2 :: rest2)).head? with
          | none => rw [hhd] at hb; exact absurd hb (by simp)
          | some b0 =>
            rw [hhd] at h2 hb
            simp only [Option.map_some'] at h2
            have hb0 : b0 = b := by simpa using hb
            rw [← hb0]
            simpa using h2.symm
        · exact h4
      · rw [hunfold, List.map_cons, List.sum_cons, h5]
        ring

lemma pstrip_nil : pstrip ([] : List Char) = [] := rfl

lemma text_ne_nil_of_pstrip {l : List Char} (hp : pstrip l ≠ []) : l ≠ [] := by
  intro hl
  exact hp (hl ▸ pstrip_nil)

lemma buildSentences_ne_nil (text : List Char) : buildSentences text ≠ [] := by
  by_cases hp : pairUp (reSplitParts text) = []
  · simp [buildSentences, hp]
  · simp [buildSentences, hp]

lemma option_pair_eq_parts {o1 o2 : Option SentCue}
    (h : o1.map (fun c => (c.startMs, c.endMs)) = o2.map (fun c => (c.startMs, c.endMs))) :
    o1.map SentCue.startMs = o2.map SentCue.startMs ∧
    o1.map SentCue.endMs = o2.map SentCue.endMs := by
  cases o1 <;> cases o2 <;> simp_all

lemma postProcess_times (prev : List Char) (l : List SentCue) :
    (postProcess prev l).map (fun c => (c.startMs, c.endMs)) =
      l.map (fun c => (c.startMs, c.endMs)) := by
  induction l generalizing prev with
  | nil => rfl
  | cons s rest ih => simp [postProcess, ih]

/-- C7: the sentence cues emitted for a caption block (with a positive time
span and non-empty stripped text) tile the block's span exactly: the list is
non-empty, the first cue starts at the block's start, the last cue ends at
the block's end, consecutive cues share a boundary, and the cue durations
sum to the block duration exactly (the last sentence absorbs the rounding
remainder).  Stated on `split_sentences_with_time` applied to the block;
the text-only post-processing pass does not move any timestamp. -/
theorem split_sentences_tiles_block (b : Block)
    (_h1 : b.startMs < b.endMs) (h2 : pstrip b.text ≠ []) :
    split_sentences_with_time [b] ≠ [] ∧
    (split_sentences_with_time [b]).head?.map SentCue.startMs = some b.startMs ∧
    (split_sentences_with_time [b]).getLast?.map SentCue.endMs = some b.endMs ∧
    List.Chain' (fun a c => a.endMs = c.startMs) (split_sentences_with_time [b]) ∧
    ((split_sentences_with_time [b]).map (fun c => c.endMs - c.startMs)).sum =
      b.endMs - b.startMs := by
  have hlen : b.text.length ≠ 0 := by
    simpa [List.length_eq_zero] using text_ne_nil_of_pstrip h2
  have hblock : blockCues b =
      emitSents (max ((b.endMs : ℚ) - (b.startMs : ℚ)) 1) (b.text.length : ℚ) b.endMs
        (b.startMs : ℚ) (buildSentences b.text) := by
    unfold blockCues
    rw [if_neg h2, if_neg hlen]
  obtain ⟨e1, e2, e3, e4, e5⟩ :=
    emitSents_spec (max ((b.endMs : ℚ) - (b.startMs : ℚ)) 1) (b.text.length : ℚ) b.endMs
      (buildSentences b.text) (b.startMs : ℚ) (buildSentences_ne_nil b.text)
  rw [← hblock] at e1 e2 e3 e4 e5
  rw [pyRound_intCast] at e2 e5
  have hflat : split_sentences_with_time [b] = postProcess [] (blockCues b) := by
    simp [split_sentences_with_time]
  have hpairs : (split_sentences_with_time [b]).map (fun c => (c.startMs, c.endMs)) =
      (blockCues b).map (fun c => (c.startMs, c.endMs)) := by
    rw [hflat]; exact postProcess_times [] (blockCues b)
  refine ⟨?_, ?_, ?_, ?_, ?_⟩
  · intro hnil
    rw [hnil] at hpairs
    exact e1 (by simpa using (List.map_eq_nil_iff.mp hpairs.symm))
  · have hh := congrArg List.head? hpairs
    rw [List.head?_map, List.head?_map] at hh
    rw [List.head?_map] at e2
    rw [(option_pair_eq_parts hh).1]
    exact e2
  · have hh := congrArg List.getLast? hpairs
    rw [List.getLast?_map, List.getLast?_map] at hh
    rw [List.getLast?_map] at e3
    rw [(option_pair_eq_parts hh).2]
    exact e3
  · have hch2 : List.Chain' (fun p q : ℤ × ℤ => p.2 = q.1)
        ((split_sentences_with_time [b]).map (fun c => (c.startMs, c.endMs))) := by
      rw [hpairs, List.chain'_map]
      exact e4
    rw [List.chain'_map] at hch2
    exact hch2
  · have : (split_sentences_with_time [b]).map (fun c => c.endMs - c.startMs) =
        ((split_sentences_with_time [b]).map (fun c => (c.startMs, c.endMs))).map
          (fun p => p.2 - p.1) := by
      rw [List.map_map]; rfl
    rw [this, hpairs, List.map_map]
    exact e5

/-- C7 witness at a concrete 10-second block. -/
theorem split_sentences_tiles_block_witness :
    ((0 : ℤ) < 10000 ∧ pstrip ("Hi there. How are you?".toList) ≠ []) ∧
    (split_sentences_with_time [⟨0, 10000, "Hi there. How are you?".toList⟩] ≠ [] ∧
      (split_sentences_with_time
          [⟨0, 10000, "Hi there. How are you?".toList⟩]).head?.map SentCue.startMs =
        some 0 ∧
      (split_sentences_with_time
          [⟨0, 10000, "Hi there. How are you?".toList⟩]).getLast?.map SentCue.endMs =
        some 10000 ∧
      List.Chain' (fun a c => a.endMs = c.startMs)
        (split_sentences_with_time [⟨0, 10000, "Hi there. How are you?".toList⟩]) ∧
      ((split_sentences_with_time [⟨0, 10000, "Hi there. How are you?".toList⟩]).map
          (fun c => c.endMs - c.startMs)).sum = 10000 - 0) :=
  ⟨⟨by decide, by decide⟩,
    split_sentences_tiles_block ⟨0, 10000, "Hi there. How are you?".toList⟩
      (by decide) (by decide)⟩

unseal Rat.add Rat.sub Rat.mul Rat.inv in
/-- C1: evaluation of the segmenter at the spec's scenario block.  The
sentence-split regex is written `r"([.?!])\\s*"` — inside a raw string the
doubled backslash makes the pattern require a literal backslash after the
terminator — so `"Hi there. How are you?"` is never split: the block yields
ONE cue carrying the whole text (the spec, the function's own docstring and
the claim demand two cues). -/
theorem split_sentences_with_time_no_split_eval :
    split_sentences_with_time [⟨0, 10000, "Hi there. How are you?".toList⟩] =
      [⟨0, 10000, "Hi there. How are you?".toList⟩] ∧
    (split_sentences_with_time [⟨0, 10000, "Hi there. How are you?".toList⟩]).length = 1 := by
  decide

/-!
## import_from_srt.select_best_segments (WindowSelector) and friends

Cues here are the normalized subtitle skeleton entries
(`normalize_subtitles_to_seconds` output): `start`/`end` are float seconds
(ℚ in the model) and the text lives under the key "text_en".

The DeepSeek oracle is external: the model only sees the outcome of
`json.loads` on the reply text (with `_extract_json_block` retried),
represented by `OracleReply`: `unparseable` when both the direct parse and
the brace-block parse fail (in Python both raise, and `select_best_segments`
does not catch either), `parsed v` when some parse produced the JSON value
`v`.  JSON values are `JVal`; Python `float(...)` coercion is `pyFloat`
(JSON numbers exactly; booleans as 0/1; plain decimal strings; exponents,
infinities and NaN are outside the ℚ model and none of the theorems below
depend on string coercions).
-/

/-- A normalized subtitle cue: Python dict keys "start", "end", "text_en". -/
structure Cue where
  start : ℚ
  stop : ℚ
  text_en : List Char
deriving DecidableEq

/-- A selected window; the Python dicts also carry a descriptive "reason"
string which never influences control flow and is not modelled. -/
structure Window where
  start : ℚ
  stop : ℚ
deriving DecidableEq

/-- A JSON value as produced by `json.loads`. -/
inductive JVal where
  | null
  | bool (b : Bool)
  | num (q : ℚ)
  | str (s : List Char)
  | arr (xs : List JVal)
  | obj (kvs : List (List Char × JVal))

/-- The outcome of parsing the oracle's reply text (`_parse` at
import_from_srt.py:577-582). -/
inductive OracleReply where
  | unparseable
  | parsed (v : JVal)

/-- Exceptions that escape `select_best_segments`. -/
inductive PyErr where
  | parseError
  | attributeError
  | typeError
deriving DecidableEq

instance {ε α : Type} [DecidableEq ε] [DecidableEq α] : DecidableEq (Except ε α) := fun x y =>
  match x, y with
  | .ok a, .ok b =>
    if h : a = b then isTrue (by rw [h])
    else isFalse (by intro hc; injection hc; contradiction)
  | .error e, .error f =>
    if h : e = f then isTrue (by rw [h])
    else isFalse (by intro hc; injection hc; contradiction)
  | .ok _, .error _ => isFalse (by intro hc; exact Except.noConfusion hc)
  | .error _, .ok _ => isFalse (by intro hc; exact Except.noConfusion hc)

/-- `dict.get`: duplicate JSON keys resolve to the last binding, as in
`json.loads`. -/
def jGet (kvs : List (List Char × JVal)) (k : List Char) : Option JVal :=
  (kvs.filter (fun kv => kv.1 = k)).getLast?.map (fun kv => kv.2)

/-- Python truthiness of a JSON value. -/
def jTruthy : JVal → Bool
  | .null => false
  | .bool b => b
  | .num q => decide (q ≠ 0)
  | .str s => !s.isEmpty
  | .arr xs => !xs.isEmpty
  | .obj kvs => !kvs.isEmpty

/-- Plain decimal parsing for Python `float(str)`: optional sign, digits
with at most one point. -/
def digitsToNat (l : List Char) : ℕ :=
  l.foldl (fun a c => a * 10 + (c.toNat - 48)) 0

def parseDecimal (s0 : List Char) : Option ℚ :=
  let s1 := pstrip s0
  let signed : ℚ × List Char :=
    match s1 with
    | c :: rest => if c = '-' then (-1, rest) else if c = '+' then (1, rest) else (1, s1)
    | [] => (1, [])
  let s2 := signed.2
  if s2 = [] then none
  else
    let ip := s2.takeWhile (fun c => c ≠ '.')
    match s2.drop ip.length with
    | [] => if ip.all Char.isDigit then some (signed.1 * digitsToNat ip) else none
    | _ :: fp =>
      if ip.all Char.isDigit ∧ fp.all Char.isDigit ∧ (ip ≠ [] ∨ fp ≠ []) then
        some (signed.1 * ((digitsToNat ip : ℚ) + (digitsToNat fp : ℚ) / 10 ^ fp.length))
      else none

/-- Python `float(x)` on a JSON value. -/
def pyFloat : JVal → Option ℚ
  | .num q => some q
  | .bool b => some (if b then 1 else 0)
  | .str s => parseDecimal s
  | _ => none

/-- `data.get("segments") or []`: a missing or falsy value becomes the empty
list. -/
def segmentsValue (kvs : List (List Char × JVal)) : JVal :=
  match jGet kvs ("segments".toList) with
  | none => .arr []
  | some v => if jTruthy v then v else .arr []

/-- Python `for seg in segments`: lists iterate their items, strings and
dicts iterate one-character strings / key strings (every such item then
fails the per-item field access and is skipped), any other value raises
TypeError at the `for` statement. -/
def iterSegs : JVal → Except PyErr (List JVal)
  | .arr xs => .ok xs
  | .str s => .ok (s.map (fun c => JVal.str [c]))
  | .obj kvs => .ok (kvs.map (fun kv => JVal.str kv.1))
  | _ => .error .typeError

/-- `max(s.get("end", 0.0) for s in subtitles)` with the surrounding
try/except turning the empty-sequence ValueError into 0.0. -/
def estimatedDuration (subs : List Cue) : ℚ :=
  match subs.map (fun s => s.stop) with
  | [] => 0
  | e :: es => es.foldl max e

/-- The target segment count derived from the estimated duration
(import_from_srt.py:515-524). -/
def targetSegments (est : ℚ) : ℕ :=
  if est < 5 * 60 then 1
  else if est < 10 * 60 then 2
  else if est < 15 * 60 then 3
  else if est < 20 * 60 then 4
  else (min 6 (4 + ⌈(est - 24 * 60) / (5 * 60)⌉)).toNat

/-- The whole-clip short circuit (import_from_srt.py:507-511): for a
positive estimated duration of at most `max_len`, return one window from the
first cue's start to the last cue's end (an `end` of exactly 0 falls back to
the estimated duration via `or`); if that span is not positive, fall through
to the selection paths. -/
def scWindow? (subs : List Cue) : Option Window :=
  match subs.head?, subs.getLast? with
  | some s0, some sl =>
    if 0 < estimatedDuration subs ∧ estimatedDuration subs ≤ 150 then
      if s0.start < (if sl.stop = 0 then estimatedDuration subs else sl.stop) then
        some ⟨s0.start, if sl.stop = 0 then estimatedDuration subs else sl.stop⟩
      else none
    else none
  | _, _ => none

/-- The per-segment validation of the primary oracle reply
(import_from_srt.py:587-599): any per-item failure (non-dict item, missing
key, non-coercible value) is skipped; windows with `end <= start` or with a
length outside `[min_len, max_len]` are dropped. -/
def validateSeg (seg : JVal) : Option Window :=
  match seg with
  | .obj kvs =>
    match (jGet kvs ("start".toList)).bind pyFloat, (jGet kvs ("end".toList)).bind pyFloat with
    | some s, some e =>
      if e ≤ s then none
      else if e - s < 90 ∨ 150 < e - s then none
      else some ⟨s, e⟩
    | _, _ => none
  | _ => none

def validWindows (items : List JVal) : List Window :=
  items.filterMap validateSeg

/-- The greedy pass over the start-sorted valid windows
(import_from_srt.py:601-612): drop a window that starts before the last kept
window's end, stop once `target` windows are kept. -/
def dedupeAux (prev : Window) (count target : ℕ) : List Window → List Window
  | [] => []
  | s :: rest =>
    if s.start < prev.stop then dedupeAux prev count target rest
    else if target ≤ count + 1 then [s]
    else s :: dedupeAux s (count + 1) target rest

def dedupeWindows (target : ℕ) : List Window → List Window
  | [] => []
  | s :: rest => s :: dedupeAux s 1 target rest

/-- The windows surviving the primary oracle path: validate, stable-sort by
start (Python's `list.sort` is stable; insertion sort computes the same
list), then greedy non-overlap packing. -/
def primary_windows (subs : List Cue) (items : List JVal) : List Window :=
  dedupeWindows (targetSegments (estimatedDuration subs))
    ((validWindows items).insertionSort (fun a b => a.start ≤ b.start))

/-- An enumerated fallback candidate: `(score, start, end)`. -/
structure Cand where
  score : ℚ
  start : ℚ
  stop : ℚ
deriving DecidableEq

def apos : Char := Char.ofNat 39

/-- The inner scan of `_fallback_segments_from_subtitles`
(import_from_srt.py:661-675 and 683-696): walk cues from position `i` while
`cue.start <= targetEnd`, extending the window end and accumulating the
character-count score with a flat +4 bonus when the (stripped) text contains
an apostrophe; empty text still extends the end. -/
def scanWindow (targetEnd : ℚ) : List Cue → ℚ → ℚ → ℚ × ℚ
  | [], e, sc => (e, sc)
  | c :: rest, e, sc =>
    if targetEnd < c.start then (e, sc)
    else
      let e2 := max e c.stop
      let t := pstrip c.text_en
      if t = [] then scanWindow targetEnd rest e2 sc
      else scanWindow targetEnd rest e2
        (sc + t.length + (if t.contains apos then 4 else 0))

/-- The first scan of a candidate window (import_from_srt.py:656-665): grow
to the last cue boundary within `start + target_len = start + 120` (capped
by the total duration). -/
def candFirst (duration : ℚ) (c : Cue) (rest : List Cue) : ℚ × ℚ :=
  scanWindow (min duration (c.start + 120)) (c :: rest) c.start 0

/-- The effective (end, score) of a candidate after the too-long rescan
against `start + max_len = start + 150`. -/
def candSecond (duration : ℚ) (c : Cue) (rest : List Cue) : ℚ × ℚ :=
  if 150 < (candFirst duration c rest).1 - c.start then
    scanWindow (c.start + 150) (c :: rest) c.start 0
  else candFirst duration c rest

/-- The candidate contributed by the cue suffix `c :: rest`, if any
(import_from_srt.py:646-704): starts before `min_start = 10` contribute
nothing, and the candidate is kept only when its final length lies in
`[90, 150]`. -/
def candFor (duration : ℚ) (c : Cue) (rest : List Cue) : Option Cand :=
  if c.start < 10 then none
  else if (candFirst duration c rest).1 - c.start < 90 then none
  else if (candSecond duration c rest).1 - c.start < 90 ∨
      150 < (candSecond duration c rest).1 - c.start then none
  else some ⟨(candSecond duration c rest).2, c.start, (candSecond duration c rest).1⟩

/-- Candidate enumeration: one (optional) candidate per cue suffix, in cue
order. -/
def candsAux (duration : ℚ) : List Cue → List Cand
  | [] => []
  | c :: rest =>
    match candFor duration c rest with
    | none => candsAux duration rest
    | some cd => cd :: candsAux duration rest

/-- The greedy non-overlap pick over score-sorted candidates
(import_from_srt.py:711-726): skip a candidate that overlaps any already
picked window, stop at `maxPick` picks; order of picking (by score) is the
order of the result. -/
def pickGreedy (maxPick : ℕ) : List Cand → List Window → List Window
  | [], acc => acc
  | c :: rest, acc =>
    if acc.any (fun p => !(decide (c.stop ≤ p.start) || decide (p.stop ≤ c.start))) then
      pickGreedy maxPick rest acc
    else if maxPick ≤ (acc ++ [(⟨c.start, c.stop⟩ : Window)]).length then
      acc ++ [(⟨c.start, c.stop⟩ : Window)]
    else pickGreedy maxPick rest (acc ++ [(⟨c.start, c.stop⟩ : Window)])

/-- `_fallback_segments_from_subtitles` (import_from_srt.py:626-726):
deterministic local candidate enumeration and greedy selection; candidates
are sorted by score descending (stable, matching Python's
`sort(reverse=True)`). -/
def fallback_segments (subs : List Cue) (target : ℕ) : List Window :=
  if subs = [] then []
  else if estimatedDuration subs < 90 then []
  else if candsAux (estimatedDuration subs) subs = [] then []
  else
    pickGreedy (max 8 target)
      ((candsAux (estimatedDuration subs) subs).insertionSort
        (fun a b => b.score ≤ a.score)) []

/-- `allowed = {(c["start"], c["end"]) for c in candidates_payload}`: only
the first 8 fallback candidates are offered to the second call. -/
def allowedPairs (fb : List Window) : List (ℚ × ℚ) :=
  (fb.take 8).map (fun c => (c.start, c.stop))

/-- Per-segment handling of the second reply: field access / coercion
failures skip the item, and the `(start, end)` pair must equal one of the
offered candidates. -/
def pickAllowedSeg (allowed : List (ℚ × ℚ)) (seg : JVal) : Option Window :=
  match seg with
  | .obj skvs =>
    match (jGet skvs ("start".toList)).bind pyFloat,
        (jGet skvs ("end".toList)).bind pyFloat with
    | some s, some e =>
      if (s, e) ∈ allowed then some (⟨s, e⟩ : Window) else none
    | _, _ => none
  | _ => none

/-- The second oracle call over the fallback candidates
(import_from_srt.py:732-794).  The whole block runs inside
`try: ... except Exception: pass`, so every failure — parse error, non-dict
reply, non-iterable "segments" — yields `none` and the caller falls back to
the plain candidate prefix. -/
def secondSelection (fb : List Window) (target : ℕ) (r2 : OracleReply) :
    Option (List Window) :=
  match r2 with
  | .unparseable => none
  | .parsed v =>
    match v with
    | .obj kvs =>
      match iterSegs (segmentsValue kvs) with
      | .error _ => none
      | .ok items =>
        if items.filterMap (pickAllowedSeg (allowedPairs fb)) = [] then none
        else some (((items.filterMap (pickAllowedSeg (allowedPairs fb))).insertionSort
            (fun a b => a.start ≤ b.start)).take target)
    | _ => none

/-- The selection pipeline after the primary reply has been parsed and its
"segments" member has been successfully iterated (everything from
import_from_srt.py:587 on is exception-free). -/
def afterPrimary (subs : List Cue) (items : List JVal) (r2 : OracleReply) : List Window :=
  if primary_windows subs items = [] then
    if fallback_segments subs (targetSegments (estimatedDuration subs)) = [] then []
    else
      match secondSelection (fallback_segments subs (targetSegments (estimatedDuration subs)))
          (targetSegments (estimatedDuration subs)) r2 with
      | some ws => ws
      | none =>
        (fallback_segments subs (targetSegments (estimatedDuration subs))).take
          (targetSegments (estimatedDuration subs))
  else primary_windows subs items

/-- `import_from_srt.select_best_segments`: `r1` is the parse outcome of the
primary reply, `r2` of the second (fallback-refinement) reply.  Exceptions
escape only from the primary parse (`_parse` re-raises on unparseable text),
from `.get` on a non-dict reply, and from iterating a non-iterable
"segments" value; the whole-clip short circuit returns before the oracle is
consulted. -/
def select_best_segments (subs : List Cue) (r1 r2 : OracleReply) :
    Except PyErr (List Window) :=
  match scWindow? subs with
  | some w => .ok [w]
  | none =>
    match r1 with
    | .unparseable => .error .parseError
    | .parsed (.obj kvs) =>
      match iterSegs (segmentsValue kvs) with
      | .error e => .error e
      | .ok items => .ok (afterPrimary subs items r2)
    | .parsed _ => .error .attributeError

/-!
## import_from_srt.adjust_segment_boundaries (BoundaryAdjuster)
-/

/-- `import_from_srt._looks_like_sentence_end`. -/
def _looks_like_sentence_end (text_en : List Char) : Bool :=
  let t := pstrip text_en
  if t = [] then false
  else
    let low := t.map Char.toLower
    if trailsWith (" and".toList) low || trailsWith (" but".toList) low ||
        trailsWith (" so".toList) low || trailsWith (" or".toList) low ||
        trailsWith (" because".toList) low || trailsWith (" i just".toList) low ||
        trailsWith (" we just".toList) low || trailsWith (" you know".toList) low then
      false
    else
      trailsWith (".".toList) t || trailsWith ("!".toList) t ||
        trailsWith ("?".toList) t || trailsWith ("…".toList) t

/-- Index of the first cue starting at or after the window start, 0 when no
cue does (the loop variable keeps its initialization). -/
def startIdxOf (subs : List Cue) (start : ℚ) : ℕ :=
  match subs.findIdx? (fun s => start ≤ s.start) with
  | some i => i
  | none => 0

/-- Index of the last cue of the maximal prefix whose ends are at most the
window end; 0 when already the first cue ends after it. -/
def endIdxOf (subs : List Cue) (stop : ℚ) : ℕ :=
  if (subs.takeWhile (fun s => s.stop ≤ stop)).length = 0 then 0
  else (subs.takeWhile (fun s => s.stop ≤ stop)).length - 1

/-- The forward scan (import_from_srt.py:840-845): from the cue at
`end_idx`, break once the cue's end is more than `max_len` past the window
start, return the first sentence-complete cue's end. -/
def forwardScanGo (start maxLen : ℚ) : List Cue → Option ℚ
  | [] => none
  | s :: rest =>
    if maxLen < s.stop - start then none
    else if _looks_like_sentence_end s.text_en then some s.stop
    else forwardScanGo start maxLen rest

def forwardScan (subs : List Cue) (start maxLen : ℚ) (eIdx : ℕ) : Option ℚ :=
  forwardScanGo start maxLen (subs.drop eIdx)

/-- The backward scan (import_from_srt.py:848-853): from `end_idx` down to
`start_idx`, break once the cue's end is less than `min_len` past the window
start, return the first sentence-complete cue's end. -/
def backwardScanGo (start minLen : ℚ) : List Cue → Option ℚ
  | [] => none
  | s :: rest =>
    if s.stop - start < minLen then none
    else if _looks_like_sentence_end s.text_en then some s.stop
    else backwardScanGo start minLen rest

def backwardScan (subs : List Cue) (start minLen : ℚ) (sIdx eIdx : ℕ) : Option ℚ :=
  backwardScanGo start minLen (((subs.take (eIdx + 1)).drop sIdx).reverse)

/-- `import_from_srt.adjust_segment_boundaries`. -/
def adjust_segment_boundaries (subs : List Cue) (start stop minLen maxLen : ℚ) : ℚ × ℚ :=
  if subs = [] then (start, stop)
  else
    match forwardScan subs start maxLen (endIdxOf subs stop) with
    | some e => (start, e)
    | none =>
      match backwardScan subs start minLen (startIdxOf subs start) (endIdxOf subs stop) with
      | some e => (start, e)
      | none => (start, stop)

/-!
## import_from_srt.slice_subtitles_for_segment (WindowSlicer)
-/

/-- The rebasing applied to one kept cue. -/
def rebaseCue (start : ℚ) (sub : Cue) : Cue :=
  { sub with start := max 0 (sub.start - start), stop := max 0 (sub.stop - start) }

/-- `import_from_srt.slice_subtitles_for_segment`. -/
def slice_subtitles_for_segment (subs : List Cue) (start stop : ℚ) : List Cue :=
  subs.filterMap fun sub =>
    if sub.stop ≤ start ∨ stop ≤ sub.start then none
    else some (rebaseCue start sub)

/-!
## Supporting lemmas for the WindowSelector claims
-/

/-- Two windows do not overlap (in either order). -/
def winNonOv (a b : Window) : Prop :=
  a.stop ≤ b.start ∨ b.stop ≤ a.start

lemma validateSeg_bounds {seg : JVal} {w : Window} (h : validateSeg seg = some w) :
    0 < w.stop - w.start ∧ 90 ≤ w.stop - w.start ∧ w.stop - w.start ≤ 150 := by
  cases seg with
  | obj kvs =>
    rw [validateSeg] at h
    cases h1 : (jGet kvs ("start".toList)).bind pyFloat with
    | none => rw [h1] at h; simp at h
    | some s =>
      cases h2 : (jGet kvs ("end".toList)).bind pyFloat with
      | none => rw [h1, h2] at h; simp at h
      | some e =>
        rw [h1, h2] at h
        simp only at h
        split_ifs at h with hc1 hc2
        push_neg at hc1 hc2
        obtain ⟨hge, hle⟩ := hc2
        have hww : w = ⟨s, e⟩ := by
          injection h with hh
          exact hh.symm
        subst hww
        exact ⟨by simpa using hc1, by simpa using hge, by simpa using hle⟩
  | null => simp [validateSeg] at h
  | bool b => simp [validateSeg] at h
  | num q => simp [validateSeg] at h
  | str t => simp [validateSeg] at h
  | arr xs => simp [validateSeg] at h

lemma mem_validWindows {items : List JVal} {w : Window} (hw : w ∈ validWindows items) :
    0 < w.stop - w.start ∧ 90 ≤ w.stop - w.start ∧ w.stop - w.start ≤ 150 := by
  rw [validWindows, List.mem_filterMap] at hw
  obtain ⟨seg, -, hseg⟩ := hw
  exact validateSeg_bounds hseg

lemma mem_dedupeAux {t : ℕ} :
    ∀ {l : List Window} {prev : Window} {c : ℕ} {w : Window},
      w ∈ dedupeAux prev c t l → w ∈ l := by
  intro l
  induction l with
  | nil => intro prev c w h; simp [dedupeAux] at h
  | cons s rest ih =>
    intro prev c w h
    rw [dedupeAux] at h
    split at h
    · exact List.mem_cons_of_mem _ (ih h)
    · split at h
      · simp only [List.mem_singleton] at h
        exact h ▸ List.mem_cons_self _ _
      · rcases List.mem_cons.mp h with h' | h'
        · exact h' ▸ List.mem_cons_self _ _
        · exact List.mem_cons_of_mem _ (ih h')

lemma mem_dedupeWindows {t : ℕ} {l : List Window} {w : Window}
    (h : w ∈ dedupeWindows t l) : w ∈ l := by
  cases l with
  | nil => simp [dedupeWindows] at h
  | cons s rest =>
    rw [dedupeWindows] at h
    rcases List.mem_cons.mp h with h' | h'
    · exact h' ▸ List.mem_cons_self _ _
    · exact List.mem_cons_of_mem _ (mem_dedupeAux h')

lemma chain_dedupeAux (t : ℕ) :
    ∀ (l : List Window) (prev : Window) (c : ℕ),
      List.Chain' (fun a b => a.stop ≤ b.start) (prev :: dedupeAux prev c t l) := by
  intro l
  induction l with
  | nil => intro prev c; simp [dedupeAux]
  | cons s rest ih =>
    intro prev c
    rw [dedupeAux]
    split
    · exact ih prev c
    · next hlt =>
      push_neg at hlt
      split
      · exact List.chain'_cons.mpr ⟨hlt, List.chain'_singleton s⟩
      · exact List.chain'_cons.mpr ⟨hlt, ih s (c + 1)⟩

lemma chain_dedupeWindows (t : ℕ) (l : List Window) :
    List.Chain' (fun a b => a.stop ≤ b.start) (dedupeWindows t l) := by
  cases l with
  | nil => simp [dedupeWindows]
  | cons s rest =>
    rw [dedupeWindows]
    exact chain_dedupeAux t rest s 1

lemma mem_primary_windows {subs : List Cue} {items : List JVal} {w : Window}
    (h : w ∈ primary_windows subs items) :
    0 < w.stop - w.start ∧ 90 ≤ w.stop - w.start ∧ w.stop - w.start ≤ 150 := by
  rw [primary_windows] at h
  exact mem_validWindows (List.mem_insertionSort _ |>.mp (mem_dedupeWindows h))

lemma chain_primary_windows (subs : List Cue) (items : List JVal) :
    List.Chain' (fun a b => a.stop ≤ b.start) (primary_windows subs items) := by
  rw [primary_windows]
  exact chain_dedupeWindows _ _

lemma candFor_bounds {dur : ℚ} {c : Cue} {rest : List Cue} {cd : Cand}
    (h : candFor dur c rest = some cd) :
    90 ≤ cd.stop - cd.start ∧ cd.stop - cd.start ≤ 150 := by
  rw [candFor] at h
  split_ifs at h with h1 h2 h3
  push_neg at h3
  have hcd : cd = ⟨(candSecond dur c rest).2, c.start, (candSecond dur c rest).1⟩ := by
    injection h with hh
    exact hh.symm
  subst hcd
  exact ⟨h3.1, h3.2⟩

lemma mem_candsAux {dur : ℚ} :
    ∀ {l : List Cue} {cd : Cand}, cd ∈ candsAux dur l →
      90 ≤ cd.stop - cd.start ∧ cd.stop - cd.start ≤ 150 := by
  intro l
  induction l with
  | nil => intro cd h; simp [candsAux] at h
  | cons hd rest ih =>
    intro cd h
    rw [candsAux] at h
    cases hc : candFor dur hd rest with
    | none => rw [hc] at h; exact ih h
    | some cd2 =>
      rw [hc] at h
      rcases List.mem_cons.mp h with h2 | h2
      · exact h2 ▸ candFor_bounds hc
      · exact ih h2

lemma mem_pickGreedy {mp : ℕ} :
    ∀ {cands : List Cand} {acc : List Window} {w : Window},
      w ∈ pickGreedy mp cands acc →
        w ∈ acc ∨ ∃ c ∈ cands, w = Window.mk c.start c.stop := by
  intro cands
  induction cands with
  | nil => intro acc w h; simp [pickGreedy] at h; exact Or.inl h
  | cons c rest ih =>
    intro acc w h
    rw [pickGreedy] at h
    split at h
    · rcases ih h with h' | ⟨c', hc', he⟩
      · exact Or.inl h'
      · exact Or.inr ⟨c', List.mem_cons_of_mem _ hc', he⟩
    · split at h
      · rcases List.mem_append.mp h with h' | h'
        · exact Or.inl h'
        · simp only [List.mem_singleton] at h'
          exact Or.inr ⟨c, List.mem_cons_self _ _, h'⟩
      · rcases ih h with h' | ⟨c', hc', he⟩
        · rcases List.mem_append.mp h' with h'' | h''
          · exact Or.inl h''
          · simp only [List.mem_singleton] at h''
            exact Or.inr ⟨c, List.mem_cons_self _ _, h''⟩
        · exact Or.inr ⟨c', List.mem_cons_of_mem _ hc', he⟩

lemma pairwise_pickGreedy {mp : ℕ} :
    ∀ {cands : List Cand} {acc : List Window},
      List.Pairwise winNonOv acc → List.Pairwise winNonOv (pickGreedy mp cands acc) := by
  intro cands
  induction cands with
  | nil => intro acc h; simpa [pickGreedy] using h
  | cons c rest ih =>
    intro acc hacc
    rw [pickGreedy]
    split
    · exact ih hacc
    · next hov =>
      have hfalse : acc.any
          (fun p => !(decide (c.stop ≤ p.start) || decide (p.stop ≤ c.start))) = false := by
        simpa using hov
      have hnoov : ∀ p ∈ acc, winNonOv p (Window.mk c.start c.stop) := by
        intro p hp
        have h3 := List.any_eq_false.mp hfalse p hp
        have h4 : p.start < c.stop → p.stop ≤ c.start := by simpa using h3
        by_cases h5 : p.start < c.stop
        · exact Or.inl (h4 h5)
        · exact Or.inr (le_of_not_lt h5)
      have hacc2 : List.Pairwise winNonOv (acc ++ [Window.mk c.start c.stop]) := by
        rw [List.pairwise_append]
        exact ⟨hacc, List.pairwise_singleton _ _, fun a ha b hb => by
          simp only [List.mem_singleton] at hb
          exact hb ▸ hnoov a ha⟩
      split
      · exact hacc2
      · exact ih hacc2

lemma mem_fallback_segments {subs : List Cue} {t : ℕ} {w : Window}
    (h : w ∈ fallback_segments subs t) :
    ∃ c ∈ candsAux (estimatedDuration subs) subs, w = Window.mk c.start c.stop := by
  rw [fallback_segments] at h
  split at h
  · simp at h
  · split at h
    · simp at h
    · split at h
      · simp at h
      · rcases mem_pickGreedy h with h' | ⟨c, hc, he⟩
        · simp at h'
        · exact ⟨c, List.mem_insertionSort _ |>.mp hc, he⟩

lemma fallback_bounds {subs : List Cue} {t : ℕ} {w : Window}
    (h : w ∈ fallback_segments subs t) :
    90 ≤ w.stop - w.start ∧ w.stop - w.start ≤ 150 := by
  obtain ⟨c, hc, he⟩ := mem_fallback_segments h
  subst he
  exact mem_candsAux hc

lemma pairwise_fallback (subs : List Cue) (t : ℕ) :
    List.Pairwise winNonOv (fallback_segments subs t) := by
  rw [fallback_segments]
  split
  · exact List.Pairwise.nil
  · split
    · exact List.Pairwise.nil
    · split
      · exact List.Pairwise.nil
      · exact pairwise_pickGreedy List.Pairwise.nil

lemma pickAllowedSeg_mem {allowed : List (ℚ × ℚ)} {seg : JVal} {w : Window}
    (h : pickAllowedSeg allowed seg = some w) : (w.start, w.stop) ∈ allowed := by
  cases seg with
  | obj skvs =>
    rw [pickAllowedSeg] at h
    cases h1 : (jGet skvs ("start".toList)).bind pyFloat with
    | none => rw [h1] at h; simp at h
    | some s =>
      cases h2 : (jGet skvs ("end".toList)).bind pyFloat with
      | none => rw [h1, h2] at h; simp at h
      | some e =>
        rw [h1, h2] at h
        simp only at h
        split at h
        · next hmem =>
          have hww : w = ⟨s, e⟩ := by
            injection h with hh
            exact hh.symm
          subst hww
          simpa using hmem
        · exact absurd h (by simp)
  | null => simp [pickAllowedSeg] at h
  | bool b => simp [pickAllowedSeg] at h
  | num q => simp [pickAllowedSeg] at h
  | str t => simp [pickAllowedSeg] at h
  | arr xs => simp [pickAllowedSeg] at h

lemma mem_secondSelection {fb : List Window} {t : ℕ} {r2 : OracleReply}
    {ws : List Window} {w : Window}
    (h : secondSelection fb t r2 = some ws) (hw : w ∈ ws) :
    ∃ c ∈ fb, w.start = c.start ∧ w.stop = c.stop := by
  cases r2 with
  | unparseable => simp [secondSelection] at h
  | parsed v =>
    cases v with
    | obj kvs =>
      rw [secondSelection.eq_def] at h
      simp only at h
      cases hit : iterSegs (segmentsValue kvs) with
      | error e => rw [hit] at h; exact absurd h (by simp)
      | ok items =>
        rw [hit] at h
        simp only at h
        split at h
        · exact absurd h (by simp)
        · have hws : ws = ((items.filterMap (pickAllowedSeg (allowedPairs fb))).insertionSort
              (fun a b => a.start ≤ b.start)).take t := by
            injection h with hh
            exact hh.symm
          rw [hws] at hw
          have hw2 := List.mem_insertionSort _ |>.mp (List.mem_of_mem_take hw)
          rw [List.mem_filterMap] at hw2
          obtain ⟨seg, -, hseg⟩ := hw2
          have hmem := pickAllowedSeg_mem hseg
          rw [allowedPairs] at hmem
          obtain ⟨c, hc, hce⟩ := List.mem_map.mp hmem
          refine ⟨c, List.mem_of_mem_take hc, ?_, ?_⟩
          · exact (congrArg Prod.fst hce).symm
          · exact (congrArg Prod.snd hce).symm
    | null => simp [secondSelection] at h
    | bool b => simp [secondSelection] at h
    | num q => simp [secondSelection] at h
    | str t2 => simp [secondSelection] at h
    | arr xs => simp [secondSelection] at h

lemma scWindow?_pos {subs : List Cue} {w : Window} (h : scWindow? subs = some w) :
    0 < w.stop - w.start := by
  rw [scWindow?] at h
  cases hh : subs.head? with
  | none => rw [hh] at h; simp at h
  | some s0 =>
    cases hl : subs.getLast? with
    | none => rw [hh, hl] at h; simp at h
    | some sl =>
      rw [hh, hl] at h
      simp only at h
      by_cases h1 : 0 < estimatedDuration subs ∧ estimatedDuration subs ≤ 150
      · rw [if_pos h1] at h
        by_cases h2 : s0.start < (if sl.stop = 0 then estimatedDuration subs else sl.stop)
        · rw [if_pos h2] at h
          have hww : w = ⟨s0.start,
              if sl.stop = 0 then estimatedDuration subs else sl.stop⟩ := by
            injection h with hh2
            exact hh2.symm
          subst hww
          simpa using sub_pos.mpr h2
        · rw [if_neg h2] at h
          exact absurd h (by simp)
      · rw [if_neg h1] at h
        exact absurd h (by simp)

/-!
## Claim theorems for the WindowSlicer and BoundaryAdjuster
-/

lemma slice_eq_filter_map (subs : List Cue) (start stop : ℚ) :
    slice_subtitles_for_segment subs start stop =
      (subs.filter (fun sub => decide (start < sub.stop) && decide (sub.start < stop))).map
        (rebaseCue start) := by
  induction subs with
  | nil => rfl
  | cons hd tl ih =>
    by_cases hP : hd.stop ≤ start ∨ stop ≤ hd.start
    · have hcond : (decide (start < hd.stop) && decide (hd.start < stop)) = false := by
        rcases hP with h | h
        · simp [not_lt.mpr h]
        · simp [not_lt.mpr h]
      simpa [slice_subtitles_for_segment, List.filterMap_cons, List.filter_cons, hP, hcond]
        using ih
    · have hcond : (decide (start < hd.stop) && decide (hd.start < stop)) = true := by
        push_neg at hP
        simp [hP.1, hP.2]
      simpa [slice_subtitles_for_segment, List.filterMap_cons, List.filter_cons, hP, hcond]
        using ih

unseal Rat.add Rat.sub Rat.mul Rat.inv in
/-- C6 counterexample: a cue that extends past the window end is kept (its
start is inside the window) and its rebased end `max(0, cue.end - start)`
is NOT clamped to the window length: slicing `[(5, 300)]` to the window
`(0, 150)` returns a cue ending at 300 > 150. -/
theorem slice_subtitles_end_can_exceed_window :
    slice_subtitles_for_segment [⟨5, 300, "x".toList⟩] 0 150 = [⟨5, 300, "x".toList⟩] ∧
    ¬((300 : ℚ) ≤ 150 - 0) := by
  decide

/-- C6 (amended): `slice_subtitles_for_segment` returns exactly the cues
with `cue.end > start` and `cue.start < end`, rebased by
`start' = max(0, cue.start - start)` and `end' = max(0, cue.end - start)`;
every sliced cue's start is ≥ 0, and the rebased end stays within
`end - start` for the cues that end by the window end (a cue crossing the
window end keeps its full rebased end, which can exceed `end - start`). -/
theorem slice_subtitles_for_segment_spec (subs : List Cue) (start stop : ℚ)
    (h : start < stop) :
    slice_subtitles_for_segment subs start stop =
      (subs.filter (fun sub => decide (start < sub.stop) && decide (sub.start < stop))).map
        (rebaseCue start) ∧
    (∀ c ∈ slice_subtitles_for_segment subs start stop, 0 ≤ c.start) ∧
    (∀ sub ∈ subs, start < sub.stop → sub.start < stop → sub.stop ≤ stop →
      (rebaseCue start sub).stop ≤ stop - start) := by
  refine ⟨slice_eq_filter_map subs start stop, ?_, ?_⟩
  · intro c hc
    rw [slice_subtitles_for_segment, List.mem_filterMap] at hc
    obtain ⟨sub, -, hsub⟩ := hc
    split at hsub
    · exact absurd hsub (by simp)
    · have hcc : c = rebaseCue start sub := by
        injection hsub with hh
        exact hh.symm
      subst hcc
      exact le_max_left 0 _
  · intro sub _ _ _ h3
    have h0 : (0 : ℚ) ≤ stop - start := by linarith
    show max 0 (sub.stop - start) ≤ stop - start
    exact max_le h0 (by linarith)

unseal Rat.add Rat.sub Rat.mul Rat.inv in
/-- C6 amended-claim witness at a concrete window and cue list. -/
theorem slice_subtitles_for_segment_spec_witness :
    ((0 : ℚ) < 150) ∧
    (slice_subtitles_for_segment [⟨5, 100, "x".toList⟩] 0 150 =
        (([⟨5, 100, "x".toList⟩] : List Cue).filter
          (fun sub => decide ((0 : ℚ) < sub.stop) && decide (sub.start < (150 : ℚ)))).map
          (rebaseCue 0) ∧
      (∀ c ∈ slice_subtitles_for_segment [⟨5, 100, "x".toList⟩] 0 150, 0 ≤ c.start) ∧
      (∀ sub ∈ ([⟨5, 100, "x".toList⟩] : List Cue), (0 : ℚ) < sub.stop →
        sub.start < (150 : ℚ) → sub.stop ≤ (150 : ℚ) →
        (rebaseCue 0 sub).stop ≤ 150 - 0)) :=
  ⟨by norm_num, slice_subtitles_for_segment_spec [⟨5, 100, "x".toList⟩] 0 150 (by norm_num)⟩

/-- C9: `adjust_segment_boundaries` never changes the window's start (every
return path pairs the unchanged `start` with some end), and when neither the
forward scan nor the backward scan finds a sentence-complete cue end, it
returns exactly the original `(start, end)` pair. -/
theorem adjust_segment_boundaries_start_fixed_and_id
    (subs : List Cue) (start stop minLen maxLen : ℚ)
    (hf : forwardScan subs start maxLen (endIdxOf subs stop) = none)
    (hb : backwardScan subs start minLen (startIdxOf subs start) (endIdxOf subs stop) = none) :
    (∀ (subs2 : List Cue) (start2 stop2 minL2 maxL2 : ℚ),
      (adjust_segment_boundaries subs2 start2 stop2 minL2 maxL2).1 = start2) ∧
    adjust_segment_boundaries subs start stop minLen maxLen = (start, stop) := by
  constructor
  · intro subs2 start2 stop2 minL2 maxL2
    rw [adjust_segment_boundaries]
    split
    · rfl
    · split
      · rfl
      · split
        · rfl
        · rfl
  · rw [adjust_segment_boundaries]
    split
    · rfl
    · rw [hf, hb]

unseal Rat.add Rat.sub Rat.mul Rat.inv in
/-- C9 witness at a window whose only cue is not sentence-complete. -/
theorem adjust_segment_boundaries_witness :
    forwardScan [⟨0, 5, "hello".toList⟩] 0 150
        (endIdxOf [⟨0, 5, "hello".toList⟩] 5) = none ∧
    backwardScan [⟨0, 5, "hello".toList⟩] 0 90
        (startIdxOf [⟨0, 5, "hello".toList⟩] 0) (endIdxOf [⟨0, 5, "hello".toList⟩] 5) = none ∧
    ((∀ (subs2 : List Cue) (start2 stop2 minL2 maxL2 : ℚ),
        (adjust_segment_boundaries subs2 start2 stop2 minL2 maxL2).1 = start2) ∧
      adjust_segment_boundaries [⟨0, 5, "hello".toList⟩] 0 5 90 150 = (0, 5)) :=
  ⟨by decide, by decide,
    adjust_segment_boundaries_start_fixed_and_id [⟨0, 5, "hello".toList⟩] 0 5 90 150
      (by decide) (by decide)⟩

/-!
## Claim theorems for the WindowSelector

`demoCues` is a concrete normalized cue list (total span 380 s, so the
whole-clip short circuit does not fire and the target count is 2) whose
fallback enumeration yields exactly two candidates: `(20, 140)` with score 3
and `(260, 380)` with score 22.  `emptySegmentsReply` is a well-formed
oracle reply carrying zero segments, which sends the selector into the
fallback.
-/

def demoCues : List Cue :=
  [⟨0, 5, "intro".toList⟩,
   ⟨20, 30, "a".toList⟩,
   ⟨130, 140, "bb".toList⟩,
   ⟨260, 270, "cc".toList⟩,
   ⟨370, 380, "xxxxxxxxxxxxxxxxxxxx".toList⟩]

def emptySegmentsReply : OracleReply :=
  .parsed (.obj [("segments".toList, .arr [])])

/-- A second-call reply that picks the candidate `(20, 140)`. -/
def pickTwentyReply : OracleReply :=
  .parsed (.obj [("segments".toList,
    .arr [.obj [("start".toList, .num 20), ("end".toList, .num 140)]])])

unseal Rat.add Rat.sub Rat.mul Rat.inv in
/-- C2 counterexample: an oracle reply that is not parseable as JSON (e.g.
plain prose with no brace-delimited block) makes `select_best_segments`
raise — `_parse` catches only the first `json.loads` failure, and the
`_extract_json_block` / second `json.loads` failures propagate — instead of
routing into the local fallback. -/
theorem select_best_segments_crashes_on_unparseable :
    select_best_segments demoCues .unparseable .unparseable = .error .parseError := by
  decide

/-- C2 (amended): when the oracle reply parses to a JSON object whose
"segments" member is iterable (absent, falsy, a list, a string or an
object), `select_best_segments` does not raise: every malformed segment
entry is skipped and zero valid windows routes into the local fallback.  A
reply that fails to parse, parses to a non-object, or carries a non-iterable
truthy "segments" value propagates an exception. -/
theorem select_best_segments_no_crash_on_object_reply
    (subs : List Cue) (kvs : List (List Char × JVal)) (r2 : OracleReply)
    (h : ∃ items, iterSegs (segmentsValue kvs) = .ok items) :
    ∃ ws, select_best_segments subs (.parsed (.obj kvs)) r2 = .ok ws := by
  obtain ⟨items, hit⟩ := h
  cases hsc : scWindow? subs with
  | some w =>
    refine ⟨[w], ?_⟩
    rw [select_best_segments.eq_def, hsc]
  | none =>
    refine ⟨afterPrimary subs items r2, ?_⟩
    rw [select_best_segments.eq_def, hsc]
    simp only
    rw [hit]

/-- C2 amended-claim witness: a reply object with an empty segment list is
handled without an exception. -/
theorem select_best_segments_no_crash_witness :
    (∃ items, iterSegs (segmentsValue [("segments".toList, JVal.arr [])]) =
      Except.ok items) ∧
    ∃ ws, select_best_segments demoCues
        (.parsed (.obj [("segments".toList, JVal.arr [])])) .unparseable = .ok ws :=
  ⟨⟨[], rfl⟩,
    select_best_segments_no_crash_on_object_reply demoCues
      [("segments".toList, JVal.arr [])] .unparseable ⟨[], rfl⟩⟩

unseal Rat.add Rat.sub Rat.mul Rat.inv in
/-- C3 counterexample: on the fallback path the returned list is ordered by
candidate score, not by start: with `demoCues`, a zero-segment primary reply
and a failing second call, the selector returns `[(260, 380), (20, 140)]`,
whose first window ends after the second one starts. -/
theorem select_best_segments_fallback_not_sorted :
    select_best_segments demoCues emptySegmentsReply .unparseable =
      .ok [⟨260, 380⟩, ⟨20, 140⟩] ∧
    ¬((⟨260, 380⟩ : Window).stop ≤ (⟨20, 140⟩ : Window).start) := by
  decide

/-- C3 (amended): every window list produced by `select_best_segments` is
either ascending and non-overlapping (`windows[i].end <= windows[i+1].start`
holds between neighbours — the case on the whole-clip and primary oracle
paths) or consists of windows drawn (by start/end) from the locally computed
fallback candidate list, which is pairwise non-overlapping as a set but is
ordered by score and may repeat a candidate on the second-selection path. -/
theorem select_best_segments_nonoverlap (subs : List Cue) (r1 r2 : OracleReply)
    (ws : List Window) (hsel : select_best_segments subs r1 r2 = .ok ws) :
    List.Chain' (fun a b => a.stop ≤ b.start) ws ∨
    ((∀ w ∈ ws, ∃ c ∈ fallback_segments subs (targetSegments (estimatedDuration subs)),
        w.start = c.start ∧ w.stop = c.stop) ∧
      List.Pairwise winNonOv
        (fallback_segments subs (targetSegments (estimatedDuration subs)))) := by
  rw [select_best_segments.eq_def] at hsel
  cases hsc : scWindow? subs with
  | some w =>
    rw [hsc] at hsel
    simp only at hsel
    have hws : ws = [w] := by simpa using hsel.symm
    subst hws
    exact Or.inl (List.chain'_singleton w)
  | none =>
    rw [hsc] at hsel
    simp only at hsel
    cases r1 with
    | unparseable => simp at hsel
    | parsed v =>
      cases v with
      | obj kvs =>
        simp only at hsel
        cases hit : iterSegs (segmentsValue kvs) with
        | error e =>
          rw [hit] at hsel
          simp at hsel
        | ok items =>
          rw [hit] at hsel
          simp only at hsel
          have hws : ws = afterPrimary subs items r2 := by simpa using hsel.symm
          subst hws
          rw [afterPrimary]
          by_cases hpw : primary_windows subs items = []
          · rw [if_pos hpw]
            by_cases hfb : fallback_segments subs
                (targetSegments (estimatedDuration subs)) = []
            · rw [if_pos hfb]
              exact Or.inl List.chain'_nil
            · rw [if_neg hfb]
              cases hss : secondSelection
                  (fallback_segments subs (targetSegments (estimatedDuration subs)))
                  (targetSegments (estimatedDuration subs)) r2 with
              | some ws2 =>
                exact Or.inr ⟨fun w hw => mem_secondSelection hss hw,
                  pairwise_fallback subs _⟩
              | none =>
                exact Or.inr ⟨fun w hw => ⟨w, List.mem_of_mem_take hw, rfl, rfl⟩,
                  pairwise_fallback subs _⟩
          · rw [if_neg hpw]
            exact Or.inl (chain_primary_windows subs items)
      | null => simp at hsel
      | bool b => simp at hsel
      | num q => simp at hsel
      | str t => simp at hsel
      | arr xs => simp at hsel

unseal Rat.add Rat.sub Rat.mul Rat.inv in
/-- C3 amended-claim witness at the score-ordered fallback output. -/
theorem select_best_segments_nonoverlap_witness :
    select_best_segments demoCues emptySegmentsReply .unparseable =
      .ok [⟨260, 380⟩, ⟨20, 140⟩] ∧
    (List.Chain' (fun a b => a.stop ≤ b.start) ([⟨260, 380⟩, ⟨20, 140⟩] : List Window) ∨
      ((∀ w ∈ ([⟨260, 380⟩, ⟨20, 140⟩] : List Window),
          ∃ c ∈ fallback_segments demoCues (targetSegments (estimatedDuration demoCues)),
            w.start = c.start ∧ w.stop = c.stop) ∧
        List.Pairwise winNonOv
          (fallback_segments demoCues (targetSegments (estimatedDuration demoCues))))) :=
  ⟨by decide,
    select_best_segments_nonoverlap demoCues emptySegmentsReply .unparseable
      [⟨260, 380⟩, ⟨20, 140⟩] (by decide)⟩

unseal Rat.add Rat.sub Rat.mul Rat.inv in
/-- C4 counterexample: the whole-clip short circuit ignores `min_len`: a
30-second video yields the single window `(0, 30)` of length 30 < 90. -/
theorem select_best_segments_short_clip_below_min_len :
    select_best_segments [⟨0, 30, "hi".toList⟩] .unparseable .unparseable =
      .ok [⟨0, 30⟩] ∧
    ((30 : ℚ) - 0 < 90) := by
  decide

/-- C4 (amended): every window returned by `select_best_segments` has
positive length, and on every path other than the whole-clip short circuit
(primary oracle path and both fallback paths) it satisfies
`min_len <= end - start <= max_len` (90/150); the short-circuit window may
be shorter than `min_len`. -/
theorem select_best_segments_bounded_length (subs : List Cue) (r1 r2 : OracleReply)
    (ws : List Window) (hsel : select_best_segments subs r1 r2 = .ok ws)
    (w : Window) (hw : w ∈ ws) :
    0 < w.stop - w.start ∧
    (scWindow? subs = none → 90 ≤ w.stop - w.start ∧ w.stop - w.start ≤ 150) := by
  rw [select_best_segments.eq_def] at hsel
  cases hsc : scWindow? subs with
  | some w0 =>
    rw [hsc] at hsel
    simp only at hsel
    have hws : ws = [w0] := by simpa using hsel.symm
    subst hws
    have hww : w = w0 := by simpa using hw
    subst hww
    exact ⟨scWindow?_pos hsc, fun hn => absurd hn (by simp)⟩
  | none =>
    rw [hsc] at hsel
    simp only at hsel
    cases r1 with
    | unparseable => simp at hsel
    | parsed v =>
      cases v with
      | obj kvs =>
        simp only at hsel
        cases hit : iterSegs (segmentsValue kvs) with
        | error e =>
          rw [hit] at hsel
          simp at hsel
        | ok items =>
          rw [hit] at hsel
          simp only at hsel
          have hws : ws = afterPrimary subs items r2 := by simpa using hsel.symm
          subst hws
          rw [afterPrimary] at hw
          by_cases hpw : primary_windows subs items = []
          · rw [if_pos hpw] at hw
            by_cases hfb : fallback_segments subs
                (targetSegments (estimatedDuration subs)) = []
            · rw [if_pos hfb] at hw
              exact absurd hw (by simp)
            · rw [if_neg hfb] at hw
              have hfbw : ∃ c ∈ fallback_segments subs
                  (targetSegments (estimatedDuration subs)),
                  w.start = c.start ∧ w.stop = c.stop := by
                cases hss : secondSelection
                    (fallback_segments subs (targetSegments (estimatedDuration subs)))
                    (targetSegments (estimatedDuration subs)) r2 with
                | some ws2 =>
                  rw [hss] at hw
                  exact mem_secondSelection hss hw
                | none =>
                  rw [hss] at hw
                  exact ⟨w, List.mem_of_mem_take hw, rfl, rfl⟩
              obtain ⟨c, hc, hws2, hwe⟩ := hfbw
              obtain ⟨hlo, hhi⟩ := fallback_bounds hc
              rw [hws2, hwe]
              exact ⟨by linarith, fun _ => ⟨hlo, hhi⟩⟩
          · rw [if_neg hpw] at hw
            obtain ⟨hpos, hlo, hhi⟩ := mem_primary_windows hw
            exact ⟨hpos, fun _ => ⟨hlo, hhi⟩⟩
      | null => simp at hsel
      | bool b => simp at hsel
      | num q => simp at hsel
      | str t => simp at hsel
      | arr xs => simp at hsel

unseal Rat.add Rat.sub Rat.mul Rat.inv in
/-- C4 amended-claim witness at a fallback window. -/
theorem select_best_segments_bounded_length_witness :
    select_best_segments demoCues emptySegmentsReply .unparseable =
      .ok [⟨260, 380⟩, ⟨20, 140⟩] ∧
    (⟨260, 380⟩ : Window) ∈ ([⟨260, 380⟩, ⟨20, 140⟩] : List Window) ∧
    (0 < (⟨260, 380⟩ : Window).stop - (⟨260, 380⟩ : Window).start ∧
      (scWindow? demoCues = none →
        90 ≤ (⟨260, 380⟩ : Window).stop - (⟨260, 380⟩ : Window).start ∧
        (⟨260, 380⟩ : Window).stop - (⟨260, 380⟩ : Window).start ≤ 150)) :=
  ⟨by decide, by decide,
    select_best_segments_bounded_length demoCues emptySegmentsReply .unparseable
      [⟨260, 380⟩, ⟨20, 140⟩] (by decide) ⟨260, 380⟩ (by decide)⟩

unseal Rat.add Rat.sub Rat.mul Rat.inv in
/-- C5 counterexample: after a primary reply with zero valid windows, the
result still depends on the second oracle call: a failing second call
returns both fallback candidates in score order, while a second call picking
`(20, 140)` returns only that window — the two runs differ. -/
theorem select_best_segments_fallback_depends_on_second_call :
    select_best_segments demoCues emptySegmentsReply .unparseable =
      .ok [⟨260, 380⟩, ⟨20, 140⟩] ∧
    select_best_segments demoCues emptySegmentsReply pickTwentyReply =
      .ok [⟨20, 140⟩] ∧
    ([⟨260, 380⟩, ⟨20, 140⟩] : List Window) ≠ [⟨20, 140⟩] := by
  decide

/-- C5 (amended): when the primary oracle reply yields zero valid windows
(and the whole-clip short circuit does not fire), every returned window's
`(start, end)` comes from `_fallback_segments_from_subtitles`, a
deterministic function of the cue list and the target count alone; the
second oracle call may choose among and reorder these candidates, so the
exact returned list can differ between runs with different post-primary
oracle behaviour. -/
theorem select_best_segments_fallback_from_candidates
    (subs : List Cue) (kvs : List (List Char × JVal)) (items : List JVal)
    (r2 : OracleReply) (ws : List Window)
    (hsc : scWindow? subs = none)
    (hit : iterSegs (segmentsValue kvs) = .ok items)
    (hpr : primary_windows subs items = [])
    (hsel : select_best_segments subs (.parsed (.obj kvs)) r2 = .ok ws) :
    ∀ w ∈ ws, ∃ c ∈ fallback_segments subs (targetSegments (estimatedDuration subs)),
      w.start = c.start ∧ w.stop = c.stop := by
  intro w hw
  rw [select_best_segments.eq_def, hsc] at hsel
  simp only at hsel
  rw [hit] at hsel
  simp only at hsel
  have hws : ws = afterPrimary subs items r2 := by simpa using hsel.symm
  subst hws
  rw [afterPrimary, if_pos hpr] at hw
  by_cases hfb : fallback_segments subs (targetSegments (estimatedDuration subs)) = []
  · rw [if_pos hfb] at hw
    exact absurd hw (by simp)
  · rw [if_neg hfb] at hw
    cases hss : secondSelection
        (fallback_segments subs (targetSegments (estimatedDuration subs)))
        (targetSegments (estimatedDuration subs)) r2 with
    | some ws2 =>
      rw [hss] at hw
      exact mem_secondSelection hss hw
    | none =>
      rw [hss] at hw
      exact ⟨w, List.mem_of_mem_take hw, rfl, rfl⟩

unseal Rat.add Rat.sub Rat.mul Rat.inv in
/-- C5 amended-claim witness at the concrete fallback run. -/
theorem select_best_segments_fallback_from_candidates_witness :
    scWindow? demoCues = none ∧
    iterSegs (segmentsValue [("segments".toList, JVal.arr [])]) = Except.ok [] ∧
    primary_windows demoCues [] = [] ∧
    select_best_segments demoCues emptySegmentsReply .unparseable =
      .ok [⟨260, 380⟩, ⟨20, 140⟩] ∧
    ∀ w ∈ ([⟨260, 380⟩, ⟨20, 140⟩] : List Window),
      ∃ c ∈ fallback_segments demoCues (targetSegments (estimatedDuration demoCues)),
        w.start = c.start ∧ w.stop = c.stop :=
  ⟨by decide, rfl, rfl, by decide,
    select_best_segments_fallback_from_candidates demoCues
      [("segments".toList, JVal.arr [])] [] .unparseable [⟨260, 380⟩, ⟨20, 140⟩]
      (by decide) rfl rfl (by decide)⟩

end SrtSpec
